import Mathlib

/-!
Ponse — verification of the iRTSP proxy core

A shallow embedding of the Ponse man-in-the-middle proxy (Go) and proofs
about its message codec (`NewMessage` / `Message.ToBytes`), the session
side-effects of `handleIRTSPConnection` (SETUP / KNOCK / START handling and
TLS role upgrades), the side-channel spawner `startMediaConnection`, and the
duplex relay `handleMediaConnection`.

Conventions of the embedding:
* Go strings are Lean `String`s; the codec works on `String.data : List Char`.
* Go `int` is `Int` (`strconv.Atoi` is modelled without its 64-bit range
  check; all numerals appearing in the proofs are tiny).
* Go `map[string]string` is an association list updated in place
  (`mapInsert`); Go map iteration order is not deterministic, the model
  fixes insertion order.
* A Go runtime panic (out-of-range slice index) is modelled as `none` /
  a dedicated `crashed` constructor.
-/

/-- The bytes of `strings.ReplaceAll(s, "\r\n", "\n")`: scan left to right,
replacing each (non-overlapping) CRLF pair by LF. -/
def replaceCRLF : List Char → List Char
  | [] => []
  | [c] => [c]
  | c :: d :: rest =>
    if c = '\r' ∧ d = '\n' then '\n' :: replaceCRLF rest
    else c :: replaceCRLF (d :: rest)

/-- `strings.Split(s, sep)` for a one-character separator:
the first segment paired with the list of remaining segments. -/
def splitOnChar (c : Char) : List Char → List Char × List (List Char)
  | [] => ([], [])
  | d :: rest =>
    let r := splitOnChar c rest
    if d = c then ([], r.1 :: r.2) else (d :: r.1, r.2)

/-- All segments of `strings.Split` (always non-empty, like Go's). -/
def splitAll (c : Char) (xs : List Char) : List (List Char) :=
  (splitOnChar c xs).1 :: (splitOnChar c xs).2

/-- `strings.Cut(s, sep)` for a one-character separator:
`(before, after, found)` at the first occurrence of `sep`. -/
def goCut (sep : Char) : List Char → List Char × List Char × Bool
  | [] => ([], [], false)
  | d :: rest =>
    if d = sep then ([], rest, true)
    else
      let r := goCut sep rest
      (d :: r.1, r.2.1, r.2.2)

/-- `strings.TrimRight(s, ";")`: remove every trailing `;`. -/
def goTrimRightSemi (s : String) : String :=
  String.mk ((s.data.reverse.dropWhile (fun c => c = ';')).reverse)

/-- Decimal digits of a natural number, most significant first (`fmt` `%d`). -/
def natToDigits (n : Nat) : List Char :=
  if _h : n < 10 then [Nat.digitChar n]
  else natToDigits (n / 10) ++ [Nat.digitChar (n % 10)]
  termination_by n
  decreasing_by exact Nat.div_lt_self (by omega) (by omega)

/-- `fmt.Sprintf("%d", n)` for a Go `int`. -/
def intToChars (n : Int) : List Char :=
  if n < 0 then '-' :: natToDigits n.natAbs else natToDigits n.toNat

/-- Value of a decimal digit character, `none` for a non-digit. -/
def digitVal (c : Char) : Option Nat :=
  if '0' ≤ c ∧ c ≤ '9' then some (c.toNat - 48) else none

/-- Accumulating decimal parse; fails at the first non-digit. -/
def parseDigitsAux (acc : Nat) : List Char → Option Nat
  | [] => some acc
  | c :: rest =>
    match digitVal c with
    | some d => parseDigitsAux (acc * 10 + d) rest
    | none => none

/-- Non-empty all-digits decimal parse. -/
def parseDigitsNE (cs : List Char) : Option Nat :=
  match cs with
  | [] => none
  | _ => parseDigitsAux 0 cs

/-- `strconv.Atoi`: optional sign, then a non-empty run of digits and nothing
else (the 64-bit range check is not modelled). -/
def goAtoi (s : List Char) : Option Int :=
  match s with
  | [] => none
  | c :: rest =>
    if c = '-' then (parseDigitsNE rest).map (fun n => -(n : Int))
    else if c = '+' then (parseDigitsNE rest).map (fun n => (n : Int))
    else (parseDigitsNE (c :: rest)).map (fun n => (n : Int))

/-- Go map assignment `m[k] = v` on an association list: overwrite the entry
for `k` in place, or append a fresh one. -/
def mapInsert (hs : List (String × String)) (k v : String) : List (String × String) :=
  match hs with
  | [] => [(k, v)]
  | (k', v') :: rest => if k' = k then (k, v) :: rest else (k', v') :: mapInsert rest k v

/-- Go map read `m[k]` with the zero-value default `""` for a missing key. -/
def goMapGet (hs : List (String × String)) (k : String) : String :=
  (hs.lookup k).getD ""

/-- An iRTSP message (`Message` in the source): version tag, sequence number,
method, response code (`0` = request), and headers. -/
structure Message where
  Version : String
  Sequence : Int
  Method : String
  Code : Int
  Headers : List (String × String)
deriving DecidableEq, Repr

/-- One header line of `Message.ToBytes` (without the CRLF): `key=value`,
or the bare key when the value is empty. -/
def headerLineChars (kv : String × String) : List Char :=
  if kv.2 = "" then kv.1.data else kv.1.data ++ '=' :: kv.2.data

/-- CRLF-terminate every line and concatenate (the `strings.Builder` loop). -/
def joinCRLF (ls : List (List Char)) : List Char :=
  ls.foldr (fun l acc => l ++ '\r' :: '\n' :: acc) []

/-- The lines written by `Message.ToBytes`, in order: version, `Seq=<n>`,
`RSP/<method>/<code>` (for `Code > 0`) or `SET/<method>`, one line per
header, and the literal terminator `Submit`. -/
def encodedLines (m : Message) : List (List Char) :=
  m.Version.data
    :: (("Seq=").data ++ intToChars m.Sequence)
    :: (if m.Code > 0 then ("RSP/").data ++ m.Method.data ++ '/' :: intToChars m.Code
        else ("SET/").data ++ m.Method.data)
    :: (m.Headers.map headerLineChars ++ [("Submit").data])

/-- `Message.ToBytes`: serialize the message (Go map iteration order is
modelled as the `Headers` list order). -/
def Message.ToBytes (m : Message) : String :=
  String.mk (joinCRLF (encodedLines m))

/-- The header-extraction loop at the end of `NewMessage`: each remaining
line is `strings.Cut` on `=` and assigned into the map (later occurrences
of a key overwrite earlier ones). -/
def parseHeaders (lines : List (List Char)) (hs : List (String × String)) :
    List (String × String) :=
  match lines with
  | [] => hs
  | l :: rest =>
    let c := goCut '=' l
    parseHeaders rest (mapInsert hs (String.mk c.1) (String.mk c.2.1))

/-- `NewMessage` after the sequence line: method extraction
(`SET/<method>` or `RSP/<method>/<code>`) and then the headers.
`none` models the runtime panic of indexing `messageLines[0]` on an
empty slice; a failing `strconv.Atoi` on the response code returns the
partial message built so far (`return msg`). -/
def parseAfterSeq (versionLine : List Char) (seq : Int) (lines : List (List Char)) :
    Option Message :=
  match lines with
  | [] => none
  | methodLine :: rest =>
    let c := goCut '/' methodLine
    if c.2.2 = true ∧ c.1 = ("SET").data then
      some { Version := String.mk versionLine, Sequence := seq,
             Method := String.mk c.2.1, Code := 0, Headers := parseHeaders rest [] }
    else if c.2.2 = true ∧ c.1 = ("RSP").data then
      let c2 := goCut '/' c.2.1
      if c2.2.2 = true then
        match goAtoi c2.2.1 with
        | none =>
          some { Version := String.mk versionLine, Sequence := seq,
                 Method := String.mk c2.1, Code := 0, Headers := [] }
        | some code =>
          some { Version := String.mk versionLine, Sequence := seq,
                 Method := String.mk c2.1, Code := code, Headers := parseHeaders rest [] }
      else
        some { Version := String.mk versionLine, Sequence := seq,
               Method := "", Code := 0, Headers := parseHeaders rest [] }
    else
      some { Version := String.mk versionLine, Sequence := seq,
             Method := "", Code := 0, Headers := parseHeaders (methodLine :: rest) [] }

/-- `NewMessage` after the unconditional drop of the final split segment:
strip a trailing `Submit` line, read the version line, then the optional
`Seq=<n>` line (a failing `strconv.Atoi` returns the partial message),
then hand over to `parseAfterSeq`. Each `none` marks a concrete
out-of-range slice index in the source. -/
def parseMessageLines (lines1 : List (List Char)) : Option Message :=
  match lines1.getLast? with
  | none => none
  | some lastLine =>
    let lines2 := if lastLine = ("Submit").data then lines1.dropLast else lines1
    match lines2 with
    | [] => none
    | versionLine :: rest1 =>
      match rest1 with
      | [] => none
      | seqLine :: afterSeq =>
        let c := goCut '=' seqLine
        if c.2.2 = true ∧ c.1 = ("Seq").data then
          match goAtoi c.2.1 with
          | none =>
            some { Version := String.mk versionLine, Sequence := 0,
                   Method := "", Code := 0, Headers := [] }
          | some seq => parseAfterSeq versionLine seq afterSeq
        else parseAfterSeq versionLine 0 (seqLine :: afterSeq)

/-- `NewMessage`: normalize CRLF to LF, split on LF, and parse.
The source's `if len(messageLines) <= 0 { return nil }` guard tests the
pre-drop split, which is never empty; the nil return and all runtime
panics are modelled as `none`. -/
def NewMessage (message : String) : Option Message :=
  let lines0 := splitAll '\n' (replaceCRLF message.data)
  if lines0.length = 0 then none
  else parseMessageLines lines0.dropLast

/-- Outcome of `startMediaConnection` on a descriptor: `crashed` is the
runtime panic of `headerStrings[len(headerStrings)-2]` when the split has a
single segment; `aborted` is the logged early return (a failing
`strconv.Atoi` on a `ust` port; bind/listen failures are environmental and
not modelled); otherwise a datagram socket or a stream listener is set up
on the wildcard address at the given port. -/
inductive SpawnOutcome
  | crashed
  | aborted
  | datagram (port : String)
  | listener (network port : String)
deriving DecidableEq, Repr

/-- `startMediaConnection`: split the descriptor on `/`, take the port from
the last segment and the transport from the second-to-last; `ust` becomes a
UDP datagram socket (after `strconv.Atoi` of the port), anything else goes
to `net.Listen` on the identically-named network. -/
def startMediaConnection (header : String) : SpawnOutcome :=
  let headerStrings := splitAll '/' header.data
  match headerStrings.getLast? with
  | none => SpawnOutcome.crashed
  | some port =>
    match headerStrings.dropLast.getLast? with
    | none => SpawnOutcome.crashed
    | some network =>
      if network = ("ust").data then
        match goAtoi port with
        | none => SpawnOutcome.aborted
        | some _ => SpawnOutcome.datagram (String.mk port)
      else SpawnOutcome.listener (String.mk network) (String.mk port)

/-- The SETUP side effect of `handleIRTSPConnection`: the descriptors handed
to `startMediaConnection`, in call order, with the logical kind used for
logging. `v` always spawns VIDEO; `a` spawns AUDIO only when it differs
from `v`; `c` spawns CONTROL only when it differs from both. Missing
headers read as `""` (Go map zero value). -/
def setupSpawns (headers : List (String × String)) : List (String × String) :=
  let videoHeader := goMapGet headers "v"
  let audioHeader := goMapGet headers "a"
  let controlHeader := goMapGet headers "c"
  [(videoHeader, "VIDEO")]
    ++ (if audioHeader ≠ videoHeader then [(audioHeader, "AUDIO")] else [])
    ++ (if controlHeader ≠ videoHeader ∧ controlHeader ≠ audioHeader then
          [(controlHeader, "CONTROL")]
        else [])

/-- The KNOCK side effect of `handleIRTSPConnection`: the descriptor handed
to `startMediaConnection` is header `p` passed through
`strings.TrimRight(·, ";")`. -/
def knockDescriptor (headers : List (String × String)) : String :=
  goTrimRightSemi (goMapGet headers "p")

/-- One read result inside a `handleMediaConnection` copy loop: a successful
read (the sender's address is visible to the socket but discarded by
`conn.Read`), a deadline-exceeded error (the loop continues), or any other
read error (the loop breaks). -/
inductive ReadEvent
  | data (payload : List Nat) (sender : Option String)
  | timeout
  | fatal
deriving DecidableEq, Repr

/-- Whether a read event terminates its copy loop. -/
def ReadEvent.isFatal : ReadEvent → Bool
  | ReadEvent.fatal => true
  | _ => false

/-- A write call issued by a copy loop: `Write` on the connected peer
socket, or `WriteTo(buffer, addr)` on a datagram socket (`none` is a nil
address argument). The model records the calls with their arguments;
write failures are not modelled (they too break only the issuing loop). -/
inductive SendOp
  | streamWrite (payload : List Nat)
  | datagramWriteTo (payload : List Nat) (addr : Option String)
deriving DecidableEq, Repr

/-- One copy goroutine of `handleMediaConnection` over its script of read
results: skip deadline errors and empty reads, forward non-empty reads
(`WriteTo writeAddr` in UDP mode, `Write` otherwise), stop at the first
other read error. The sender address of a datagram is discarded, exactly
as `conn.Read` discards it. -/
def relayDirection (isUDP : Bool) (writeAddr : Option String) :
    List ReadEvent → List SendOp
  | [] => []
  | ReadEvent.fatal :: _ => []
  | ReadEvent.timeout :: rest => relayDirection isUDP writeAddr rest
  | ReadEvent.data payload _sender :: rest =>
    if payload.isEmpty then relayDirection isUDP writeAddr rest
    else
      (if isUDP then SendOp.datagramWriteTo payload writeAddr
       else SendOp.streamWrite payload) :: relayDirection isUDP writeAddr rest

/-- What one `handleMediaConnection` call did: the write calls issued in
each direction and which of the two endpoints it closed. -/
structure RelayResult where
  toServer : List SendOp
  toClient : List SendOp
  closedServer : Bool
  closedClient : Bool
deriving DecidableEq, Repr

/-- `handleMediaConnection`: dial `serverAddress:port` (a failure returns at
once, closing nothing), run the two copy goroutines, join them
(`wg.Wait()`), then the deferred `serverConn.Close()` runs. The accepted
client connection `conn` is never closed. In UDP mode the client-to-server
loop targets `serverConn.RemoteAddr()` (the dialed destination) and the
server-to-client loop targets `conn.RemoteAddr()`, which is nil for the
bound, unconnected datagram socket; in stream mode the address argument is
unused. -/
def handleMediaConnection (serverAddress network port : String) (dialOk : Bool)
    (clientReads serverReads : List ReadEvent) : RelayResult :=
  if dialOk = false then
    { toServer := [], toClient := [], closedServer := false, closedClient := false }
  else
    let isUDP := network = "udp"
    { toServer := relayDirection isUDP (some (serverAddress ++ ":" ++ port)) clientReads
      toClient := relayDirection isUDP none serverReads
      closedServer := true
      closedClient := false }

/-- Specification-side description of one copy direction: every non-empty
read strictly before the direction's own first terminal error is forwarded
verbatim, in order. -/
def forwardedUntilError (isUDP : Bool) (writeAddr : Option String)
    (events : List ReadEvent) : List SendOp :=
  (events.takeWhile (fun e => !e.isFatal)).filterMap (fun e =>
    match e with
    | ReadEvent.data payload _ =>
      if payload.isEmpty then none
      else some (if isUDP then SendOp.datagramWriteTo payload writeAddr
                 else SendOp.streamWrite payload)
    | _ => none)

/-- TLS role of one leg of the primary session. -/
inductive TLSRole
  | Plain
  | SecureClient
  | SecureServer
deriving DecidableEq, Repr

/-- The TLS roles of the two legs of one primary session. -/
structure LegRoles where
  client : TLSRole
  dest : TLSRole
deriving DecidableEq, Repr

/-- The START rewrite of `handleIRTSPConnection`: with the global
TLS-disable flag set, a START message whose `sc` header is present and
equal to `"tls"` has it cleared to `""` before being forwarded; any other
message is forwarded unchanged. -/
def rewriteStartMessage (disableTLS : Bool) (res : Message) : Message :=
  if res.Method = "START" ∧ disableTLS = true then
    match res.Headers.lookup "sc" with
    | some scheme =>
      if scheme = "tls" then { res with Headers := mapInsert res.Headers "sc" "" }
      else res
    | none => res
  else res

/-- The TLS upgrade at the end of a `handleIRTSPConnection` round, after the
server message has been forwarded: on method START the destination leg is
wrapped in `tls.Client` and, unless TLS is globally disabled, the client
leg in `tls.Server`; any other method leaves both legs untouched. -/
def upgradeAfterForward (disableTLS : Bool) (method : String) (r : LegRoles) : LegRoles :=
  if method = "START" then
    { client := if disableTLS = true then r.client else TLSRole.SecureServer
      dest := TLSRole.SecureClient }
  else r

/-- The leg roles in force at the start of the round following the given
destination-to-client methods, starting from the plaintext pair. -/
def rolesAfter (disableTLS : Bool) (methods : List String) : LegRoles :=
  methods.foldl (fun r m => upgradeAfterForward disableTLS m r)
    { client := TLSRole.Plain, dest := TLSRole.Plain }

/-- LF-terminate every line and concatenate (what `replaceCRLF` makes of
`joinCRLF` output whose lines are CR-free). -/
def joinNL (ls : List (List Char)) : List Char :=
  ls.foldr (fun l acc => l ++ '\n' :: acc) []

/-- No wire-format delimiter occurs in the string: no CR, LF, `=` or `/`. -/
def delimFree (s : String) : Prop :=
  '\r' ∉ s.data ∧ '\n' ∉ s.data ∧ '=' ∉ s.data ∧ '/' ∉ s.data

instance (s : String) : Decidable (delimFree s) := by
  unfold delimFree
  infer_instance

/-! ## Lemmas about the string primitives -/

theorem splitAll_nil (c : Char) : splitAll c [] = [[]] := rfl

theorem splitAll_ne_nil (c : Char) (xs : List Char) : splitAll c xs ≠ [] := by
  simp [splitAll]

theorem splitOnChar_append_sep (c : Char) (xs ys : List Char) :
    splitOnChar c (xs ++ c :: ys) =
      ((splitOnChar c xs).1, (splitOnChar c xs).2 ++ splitAll c ys) := by
  induction xs with
  | nil => simp [splitOnChar, splitAll]
  | cons d rest ih =>
    by_cases hd : d = c
    · subst hd
      simp [splitOnChar, ih]
    · simp [splitOnChar, hd, ih]

theorem splitAll_append_sep (c : Char) (xs ys : List Char) :
    splitAll c (xs ++ c :: ys) = splitAll c xs ++ splitAll c ys := by
  simp [splitAll, splitOnChar_append_sep]

theorem splitOnChar_no_sep (c : Char) (xs : List Char) (h : c ∉ xs) :
    splitOnChar c xs = (xs, []) := by
  induction xs with
  | nil => rfl
  | cons d rest ih =>
    have hd : d ≠ c := by
      intro hdc
      exact h (by simp [hdc])
    have hr : c ∉ rest := fun hc => h (List.mem_cons_of_mem _ hc)
    simp [splitOnChar, hd, ih hr]

theorem splitAll_no_sep (c : Char) (xs : List Char) (h : c ∉ xs) :
    splitAll c xs = [xs] := by
  simp [splitAll, splitOnChar_no_sep c xs h]

theorem splitAll_cons_of_no_sep (c : Char) (l ys : List Char) (h : c ∉ l) :
    splitAll c (l ++ c :: ys) = l :: splitAll c ys := by
  rw [splitAll_append_sep, splitAll_no_sep c l h]
  rfl

theorem goCut_no_sep (sep : Char) (xs : List Char) (h : sep ∉ xs) :
    goCut sep xs = (xs, [], false) := by
  induction xs with
  | nil => rfl
  | cons d rest ih =>
    have hd : d ≠ sep := by
      intro hdc
      exact h (by simp [hdc])
    have hr : sep ∉ rest := fun hc => h (List.mem_cons_of_mem _ hc)
    simp [goCut, hd, ih hr]

theorem goCut_append_sep (sep : Char) (xs ys : List Char) (h : sep ∉ xs) :
    goCut sep (xs ++ sep :: ys) = (xs, ys, true) := by
  induction xs with
  | nil => simp [goCut]
  | cons d rest ih =>
    have hd : d ≠ sep := by
      intro hdc
      exact h (by simp [hdc])
    have hr : sep ∉ rest := fun hc => h (List.mem_cons_of_mem _ hc)
    simp [goCut, hd, ih hr]

theorem replaceCRLF_crlf (rest : List Char) :
    replaceCRLF ('\r' :: '\n' :: rest) = '\n' :: replaceCRLF rest := by
  simp [replaceCRLF]

theorem replaceCRLF_cons_ne (c : Char) (rest : List Char) (h : c ≠ '\r') :
    replaceCRLF (c :: rest) = c :: replaceCRLF rest := by
  cases rest with
  | nil => rfl
  | cons d r => simp [replaceCRLF, h]

theorem replaceCRLF_append_of_no_cr (l xs : List Char) (h : '\r' ∉ l) :
    replaceCRLF (l ++ xs) = l ++ replaceCRLF xs := by
  induction l with
  | nil => rfl
  | cons c rest ih =>
    have hc : c ≠ '\r' := by
      intro hcc
      exact h (by simp [hcc])
    have hr : '\r' ∉ rest := fun hm => h (List.mem_cons_of_mem _ hm)
    simp only [List.cons_append, replaceCRLF_cons_ne c _ hc, ih hr]

theorem replaceCRLF_no_lf (l : List Char) (h : '\n' ∉ l) : replaceCRLF l = l := by
  induction l using replaceCRLF.induct with
  | case1 => rfl
  | case2 c => rfl
  | case3 c d rest hcd ih =>
    exfalso
    exact h (by simp [hcd.2])
  | case4 c d rest hcd ih =>
    have hr : '\n' ∉ d :: rest := fun hm => h (List.mem_cons_of_mem _ hm)
    calc replaceCRLF (c :: d :: rest) = c :: replaceCRLF (d :: rest) := by
          simp [replaceCRLF, hcd]
      _ = c :: d :: rest := by rw [ih hr]

theorem replaceCRLF_append_crlf (xs ys : List Char) :
    replaceCRLF (xs ++ '\r' :: '\n' :: ys) = replaceCRLF xs ++ '\n' :: replaceCRLF ys := by
  induction xs using replaceCRLF.induct with
  | case1 => simp [replaceCRLF_crlf, replaceCRLF]
  | case2 c =>
    by_cases hc : c = '\r'
    · subst hc
      have : replaceCRLF ('\r' :: '\r' :: '\n' :: ys) = '\r' :: replaceCRLF ('\r' :: '\n' :: ys) := by
        simp [replaceCRLF]
      simp [this, replaceCRLF_crlf, replaceCRLF]
    · simp [List.cons_append, replaceCRLF_cons_ne c _ hc, replaceCRLF_crlf, replaceCRLF]
  | case3 c d rest hcd ih =>
    obtain ⟨hc, hd⟩ := hcd
    subst hc
    subst hd
    simp only [List.cons_append, replaceCRLF_crlf, ih]
  | case4 c d rest hcd ih =>
    have h1 : replaceCRLF (c :: d :: (rest ++ '\r' :: '\n' :: ys))
        = c :: replaceCRLF (d :: (rest ++ '\r' :: '\n' :: ys)) := by
      simp [replaceCRLF, hcd]
    have h2 : replaceCRLF (c :: d :: rest) = c :: replaceCRLF (d :: rest) := by
      simp [replaceCRLF, hcd]
    simp only [List.cons_append] at h1 ⊢
    rw [h1, ← List.cons_append, ih, h2, List.cons_append]

theorem replaceCRLF_append_lf (xs ys : List Char) :
    replaceCRLF (xs ++ '\n' :: ys) = replaceCRLF (xs ++ ['\n']) ++ replaceCRLF ys := by
  induction xs using replaceCRLF.induct with
  | case1 =>
    have h1 : replaceCRLF ('\n' :: ys) = '\n' :: replaceCRLF ys :=
      replaceCRLF_cons_ne '\n' ys (by decide)
    simp [h1, replaceCRLF]
  | case2 c =>
    by_cases hc : c = '\r'
    · subst hc
      simp [List.cons_append, replaceCRLF_crlf, replaceCRLF]
    · have h1 : replaceCRLF (c :: '\n' :: ys) = c :: replaceCRLF ('\n' :: ys) :=
        replaceCRLF_cons_ne c _ hc
      have h2 : replaceCRLF ('\n' :: ys) = '\n' :: replaceCRLF ys :=
        replaceCRLF_cons_ne '\n' ys (by decide)
      have h3 : replaceCRLF [c, '\n'] = c :: replaceCRLF ['\n'] :=
        replaceCRLF_cons_ne c _ hc
      simp [h1, h2, h3, replaceCRLF, hc]
  | case3 c d rest hcd ih =>
    obtain ⟨hc, hd⟩ := hcd
    subst hc
    subst hd
    simp only [List.cons_append, replaceCRLF_crlf, ih]
  | case4 c d rest hcd ih =>
    have h1 : replaceCRLF (c :: d :: (rest ++ '\n' :: ys))
        = c :: replaceCRLF (d :: (rest ++ '\n' :: ys)) := by
      simp [replaceCRLF, hcd]
    have h2 : replaceCRLF (c :: d :: (rest ++ ['\n']))
        = c :: replaceCRLF (d :: (rest ++ ['\n'])) := by
      simp [replaceCRLF, hcd]
    simp only [List.cons_append] at h1 h2 ⊢
    rw [h1, ← List.cons_append, ih, h2]
    simp

theorem replaceCRLF_concat_lf_ends (xs : List Char) :
    ∃ A, replaceCRLF (xs ++ ['\n']) = A ++ ['\n'] := by
  induction xs using replaceCRLF.induct with
  | case1 => exact ⟨[], rfl⟩
  | case2 c =>
    by_cases hc : c = '\r'
    · subst hc
      exact ⟨[], by simp [replaceCRLF_crlf, replaceCRLF]⟩
    · exact ⟨[c], by simp [List.cons_append, replaceCRLF_cons_ne c _ hc, replaceCRLF, hc]⟩
  | case3 c d rest hcd ih =>
    obtain ⟨hc, hd⟩ := hcd
    subst hc
    subst hd
    obtain ⟨A, hA⟩ := ih
    exact ⟨'\n' :: A, by simp [List.cons_append, replaceCRLF_crlf, hA]⟩
  | case4 c d rest hcd ih =>
    obtain ⟨A, hA⟩ := ih
    have h1 : replaceCRLF (c :: d :: (rest ++ ['\n']))
        = c :: replaceCRLF (d :: (rest ++ ['\n'])) := by
      simp [replaceCRLF, hcd]
    refine ⟨c :: A, ?_⟩
    simp only [List.cons_append] at h1 ⊢
    rw [h1, ← List.cons_append, hA]

/-! ## Lemmas about decimal printing and parsing -/

theorem natToDigits_ne_nil (n : Nat) : natToDigits n ≠ [] := by
  rw [natToDigits]
  split
  · simp
  · simp

theorem natToDigits_mem (n : Nat) :
    ∀ c ∈ natToDigits n, ∃ d, d < 10 ∧ c = Nat.digitChar d := by
  induction n using Nat.strong_induction_on with
  | _ n ih =>
    intro c hc
    rw [natToDigits] at hc
    by_cases h : n < 10
    · simp only [h, dif_pos, List.mem_singleton] at hc
      exact ⟨n, h, hc⟩
    · simp only [h, dif_neg, not_false_iff, List.mem_append, List.mem_singleton] at hc
      rcases hc with hc | hc
      · exact ih (n / 10) (Nat.div_lt_self (by omega) (by omega)) c hc
      · exact ⟨n % 10, Nat.mod_lt n (by omega), hc⟩

theorem digitVal_digitChar : ∀ d, d < 10 → digitVal (Nat.digitChar d) = some d := by
  decide

theorem digitChar_ne_minus : ∀ d, d < 10 → Nat.digitChar d ≠ '-' := by
  decide

theorem digitChar_ne_plus : ∀ d, d < 10 → Nat.digitChar d ≠ '+' := by
  decide

theorem parseDigitsAux_append (acc : Nat) (xs ys : List Char) :
    parseDigitsAux acc (xs ++ ys) =
      match parseDigitsAux acc xs with
      | some m => parseDigitsAux m ys
      | none => none := by
  induction xs generalizing acc with
  | nil => simp [parseDigitsAux]
  | cons c rest ih =>
    simp only [List.cons_append, parseDigitsAux]
    cases digitVal c with
    | none => simp
    | some d => simp [ih]

theorem parseDigitsAux_natToDigits (n : Nat) :
    ∀ acc, parseDigitsAux acc (natToDigits n)
      = some (acc * 10 ^ (natToDigits n).length + n) := by
  induction n using Nat.strong_induction_on with
  | _ n ih =>
    intro acc
    rw [natToDigits]
    by_cases h : n < 10
    · simp only [h, dif_pos]
      simp [parseDigitsAux, digitVal_digitChar n h]
    · simp only [h, dif_neg, not_false_iff]
      rw [parseDigitsAux_append]
      rw [ih (n / 10) (Nat.div_lt_self (by omega) (by omega)) acc]
      simp only [parseDigitsAux, digitVal_digitChar (n % 10) (Nat.mod_lt n (by omega))]
      have hlen : (natToDigits (n / 10) ++ [Nat.digitChar (n % 10)]).length
          = (natToDigits (n / 10)).length + 1 := by simp
      rw [hlen]
      congr 1
      have hmod : n % 10 + 10 * (n / 10) = n := Nat.mod_add_div n 10
      ring_nf
      omega

theorem parseDigitsNE_natToDigits (n : Nat) :
    parseDigitsNE (natToDigits n) = some n := by
  have hne := natToDigits_ne_nil n
  obtain ⟨c, rest, hcr⟩ : ∃ c rest, natToDigits n = c :: rest := by
    cases hd : natToDigits n with
    | nil => exact absurd hd hne
    | cons c rest => exact ⟨c, rest, rfl⟩
  rw [hcr]
  have := parseDigitsAux_natToDigits n 0
  rw [hcr] at this
  simpa [parseDigitsNE] using this

theorem goAtoi_intToChars (z : Int) : goAtoi (intToChars z) = some z := by
  by_cases hz : z < 0
  · have h0 : intToChars z = '-' :: natToDigits z.natAbs := by
      simp [intToChars, hz]
    have h1 : goAtoi ('-' :: natToDigits z.natAbs)
        = (parseDigitsNE (natToDigits z.natAbs)).map (fun n => -(n : Int)) := by
      simp [goAtoi]
    rw [h0, h1, parseDigitsNE_natToDigits]
    show some (-(z.natAbs : Int)) = some z
    congr 1
    omega
  · have h1 : intToChars z = natToDigits z.toNat := by
      simp [intToChars, hz]
    rw [h1]
    obtain ⟨c, rest, hcr⟩ : ∃ c rest, natToDigits z.toNat = c :: rest := by
      cases hd : natToDigits z.toNat with
      | nil => exact absurd hd (natToDigits_ne_nil _)
      | cons c rest => exact ⟨c, rest, rfl⟩
    obtain ⟨d, hd10, hcd⟩ := natToDigits_mem z.toNat c (by rw [hcr]; simp)
    have hcm : c ≠ '-' := by
      rw [hcd]
      exact digitChar_ne_minus d hd10
    have hcp : c ≠ '+' := by
      rw [hcd]
      exact digitChar_ne_plus d hd10
    rw [hcr]
    simp only [goAtoi, if_neg hcm, if_neg hcp]
    rw [← hcr, parseDigitsNE_natToDigits]
    show some ((z.toNat : Int)) = some z
    congr 1
    omega

/-! ## Lemmas about the header map -/

theorem lookup_mapInsert_self (hs : List (String × String)) (k v : String) :
    (mapInsert hs k v).lookup k = some v := by
  induction hs with
  | nil => simp [mapInsert, List.lookup]
  | cons kv rest ih =>
    obtain ⟨k', v'⟩ := kv
    by_cases h : k' = k
    · subst h
      simp [mapInsert, List.lookup]
    · have hf : (k == k') = false := beq_eq_false_iff_ne.mpr fun he => h he.symm
      simp [mapInsert, h, List.lookup, hf, ih]

theorem mapInsert_of_not_mem (hs : List (String × String)) (k v : String)
    (h : k ∉ hs.map Prod.fst) : mapInsert hs k v = hs ++ [(k, v)] := by
  induction hs with
  | nil => rfl
  | cons kv rest ih =>
    obtain ⟨k', v'⟩ := kv
    have hk : k' ≠ k := by
      intro he
      exact h (by simp [he])
    have hr : k ∉ rest.map Prod.fst := by
      intro hm
      apply h
      rw [List.map_cons]
      exact List.mem_cons_of_mem _ hm
    simp [mapInsert, hk, ih hr]

theorem goCut_headerLineChars (kv : String × String) (h : '=' ∉ kv.1.data) :
    (String.mk (goCut '=' (headerLineChars kv)).1,
     String.mk (goCut '=' (headerLineChars kv)).2.1) = kv := by
  obtain ⟨k, v⟩ := kv
  by_cases hv : v = ""
  · subst hv
    have hline : headerLineChars (k, "") = k.data := by
      simp [headerLineChars]
    rw [hline, goCut_no_sep '=' k.data h]
  · have hline : headerLineChars (k, v) = k.data ++ '=' :: v.data := by
      simp [headerLineChars, hv]
    rw [hline, goCut_append_sep '=' k.data v.data h]

theorem parseHeaders_encoded :
    ∀ (hs acc : List (String × String)),
      (∀ kv ∈ hs, '=' ∉ kv.1.data) →
      (∀ kv ∈ hs, kv.1 ∉ acc.map Prod.fst) →
      hs.Pairwise (fun a b => a.1 ≠ b.1) →
      parseHeaders (hs.map headerLineChars) acc = acc ++ hs := by
  intro hs
  induction hs with
  | nil =>
    intro acc _ _ _
    simp [parseHeaders]
  | cons kv rest ih =>
    intro acc heq hacc hpw
    have hkv : '=' ∉ kv.1.data := heq kv (by simp)
    have hstep := goCut_headerLineChars kv hkv
    simp only [List.map_cons, parseHeaders]
    have hins : mapInsert acc (String.mk (goCut '=' (headerLineChars kv)).1)
        (String.mk (goCut '=' (headerLineChars kv)).2.1) = acc ++ [kv] := by
      have h1 : String.mk (goCut '=' (headerLineChars kv)).1 = kv.1 := by
        have := congrArg Prod.fst hstep
        simpa using this
      have h2 : String.mk (goCut '=' (headerLineChars kv)).2.1 = kv.2 := by
        have := congrArg Prod.snd hstep
        simpa using this
      rw [h1, h2, mapInsert_of_not_mem acc kv.1 kv.2 (hacc kv (by simp))]
    rw [hins]
    rw [ih (acc ++ [kv]) (fun x hx => heq x (List.mem_cons_of_mem _ hx)) ?hn
      (List.Pairwise.sublist (List.sublist_cons_self kv rest) hpw)]
    · simp
    case hn =>
      intro x hx
      simp only [List.map_append, List.mem_append]
      rintro (hm | hm)
      · exact hacc x (List.mem_cons_of_mem _ hx) hm
      · have hne := (List.pairwise_cons.mp hpw).1 x hx
        simp at hm
        exact hne hm.symm

/-! ## Decoding an encoded message -/

theorem replaceCRLF_joinCRLF (ls : List (List Char)) (h : ∀ l ∈ ls, '\r' ∉ l) :
    replaceCRLF (joinCRLF ls) = joinNL ls := by
  induction ls with
  | nil => rfl
  | cons l rest ih =>
    have hl : '\r' ∉ l := h l (by simp)
    have hr : ∀ x ∈ rest, '\r' ∉ x := fun x hx => h x (List.mem_cons_of_mem _ hx)
    simp only [joinCRLF, joinNL, List.foldr_cons]
    rw [replaceCRLF_append_of_no_cr l _ hl, replaceCRLF_crlf]
    have := ih hr
    simp only [joinCRLF, joinNL] at this
    rw [this]

theorem splitAll_joinNL (ls : List (List Char)) (h : ∀ l ∈ ls, '\n' ∉ l) :
    splitAll '\n' (joinNL ls) = ls ++ [[]] := by
  induction ls with
  | nil => rfl
  | cons l rest ih =>
    have hl : '\n' ∉ l := h l (by simp)
    have hr : ∀ x ∈ rest, '\n' ∉ x := fun x hx => h x (List.mem_cons_of_mem _ hx)
    simp only [joinNL, List.foldr_cons]
    rw [splitAll_cons_of_no_sep '\n' l _ hl]
    have := ih hr
    simp only [joinNL] at this
    rw [this]
    simp

theorem NewMessage_toBytes_lines (m : Message)
    (h1 : ∀ l ∈ encodedLines m, '\r' ∉ l ∧ '\n' ∉ l) :
    NewMessage m.ToBytes = parseMessageLines (encodedLines m) := by
  unfold NewMessage Message.ToBytes
  rw [show (String.mk (joinCRLF (encodedLines m))).data = joinCRLF (encodedLines m) from rfl]
  rw [replaceCRLF_joinCRLF _ (fun l hl => (h1 l hl).1),
    splitAll_joinNL _ (fun l hl => (h1 l hl).2)]
  simp [List.dropLast_concat]

theorem intToChars_mem (z : Int) :
    ∀ c ∈ intToChars z, c = '-' ∨ ∃ d, d < 10 ∧ c = Nat.digitChar d := by
  intro c hc
  unfold intToChars at hc
  by_cases hz : z < 0
  · simp only [hz, if_pos, List.mem_cons] at hc
    rcases hc with hc | hc
    · exact Or.inl hc
    · exact Or.inr (natToDigits_mem _ c hc)
  · simp only [hz, if_neg, not_false_iff] at hc
    exact Or.inr (natToDigits_mem _ c hc)

theorem digitChar_no_delims :
    ∀ d, d < 10 → Nat.digitChar d ≠ '\r' ∧ Nat.digitChar d ≠ '\n' ∧
      Nat.digitChar d ≠ '=' ∧ Nat.digitChar d ≠ '/' := by
  decide

theorem intToChars_no_delims (z : Int) :
    ∀ c ∈ intToChars z, c ≠ '\r' ∧ c ≠ '\n' ∧ c ≠ '=' ∧ c ≠ '/' := by
  intro c hc
  rcases intToChars_mem z c hc with hc | ⟨d, hd, hcd⟩
  · subst hc
    refine ⟨by decide, by decide, by decide, by decide⟩
  · subst hcd
    exact digitChar_no_delims d hd

theorem encodedLines_no_crlf (m : Message)
    (hver : delimFree m.Version) (hmeth : delimFree m.Method)
    (hkeys : ∀ kv ∈ m.Headers, delimFree kv.1 ∧ delimFree kv.2) :
    ∀ l ∈ encodedLines m, '\r' ∉ l ∧ '\n' ∉ l := by
  intro l hl
  unfold encodedLines at hl
  simp only [List.mem_cons, List.mem_append, List.mem_map, List.mem_singleton] at hl
  rcases hl with hl | hl | hl | ⟨kv, hkv, hline⟩ | hl
  · subst hl
    exact ⟨hver.1, hver.2.1⟩
  · subst hl
    constructor
    · intro hmem
      rcases List.mem_append.mp hmem with hm | hm
      · revert hm
        decide
      · exact (intToChars_no_delims _ _ hm).1 rfl
    · intro hmem
      rcases List.mem_append.mp hmem with hm | hm
      · revert hm
        decide
      · exact (intToChars_no_delims _ _ hm).2.1 rfl
  · subst hl
    by_cases hcode : m.Code > 0
    · simp only [hcode, if_pos]
      constructor
      · intro hmem
        rcases List.mem_append.mp hmem with hm | hm
        · rcases List.mem_append.mp hm with hm2 | hm2
          · revert hm2
            decide
          · exact hmeth.1 hm2
        · rcases List.mem_cons.mp hm with hm3 | hm3
          · exact absurd hm3 (by decide)
          · exact (intToChars_no_delims _ _ hm3).1 rfl
      · intro hmem
        rcases List.mem_append.mp hmem with hm | hm
        · rcases List.mem_append.mp hm with hm2 | hm2
          · revert hm2
            decide
          · exact hmeth.2.1 hm2
        · rcases List.mem_cons.mp hm with hm3 | hm3
          · exact absurd hm3 (by decide)
          · exact (intToChars_no_delims _ _ hm3).2.1 rfl
    · simp only [hcode, if_neg, not_false_iff]
      constructor
      · intro hmem
        rcases List.mem_append.mp hmem with hm | hm
        · revert hm
          decide
        · exact hmeth.1 hm
      · intro hmem
        rcases List.mem_append.mp hmem with hm | hm
        · revert hm
          decide
        · exact hmeth.2.1 hm
  · have hk := (hkeys kv hkv).1
    have hv := (hkeys kv hkv).2
    subst hline
    unfold headerLineChars
    by_cases hkv2 : kv.2 = ""
    · simp only [hkv2, if_pos]
      exact ⟨hk.1, hk.2.1⟩
    · simp only [hkv2, if_neg, not_false_iff]
      constructor
      · intro hmem
        rcases List.mem_append.mp hmem with hm | hm
        · exact hk.1 hm
        · rcases List.mem_cons.mp hm with hm2 | hm2
          · exact absurd hm2 (by decide)
          · exact hv.1 hm2
      · intro hmem
        rcases List.mem_append.mp hmem with hm | hm
        · exact hk.2.1 hm
        · rcases List.mem_cons.mp hm with hm2 | hm2
          · exact absurd hm2 (by decide)
          · exact hv.2.1 hm2
  · rcases hl with hl | hl
    · subst hl
      refine ⟨by decide, by decide⟩
    · exact absurd hl (List.not_mem_nil l)

theorem parseHeaders_encodedHeaders (m : Message)
    (hkeys : ∀ kv ∈ m.Headers, delimFree kv.1 ∧ delimFree kv.2)
    (huniq : m.Headers.Pairwise (fun a b => a.1 ≠ b.1)) :
    parseHeaders (m.Headers.map headerLineChars) [] = m.Headers := by
  have h := parseHeaders_encoded m.Headers []
    (fun kv hkv => ((hkeys kv hkv).1).2.2.1) (by simp) huniq
  simpa using h

theorem NewMessage_ToBytes_roundtrip (m : Message)
    (hver : delimFree m.Version) (hmeth : delimFree m.Method)
    (hkeys : ∀ kv ∈ m.Headers, delimFree kv.1 ∧ delimFree kv.2)
    (huniq : m.Headers.Pairwise (fun a b => a.1 ≠ b.1))
    (hcode : 0 ≤ m.Code) :
    NewMessage m.ToBytes = some m := by
  rw [NewMessage_toBytes_lines m (encodedLines_no_crlf m hver hmeth hkeys)]
  have hfront : encodedLines m =
      (m.Version.data
        :: (("Seq=").data ++ intToChars m.Sequence)
        :: (if m.Code > 0 then ("RSP/").data ++ m.Method.data ++ '/' :: intToChars m.Code
            else ("SET/").data ++ m.Method.data)
        :: m.Headers.map headerLineChars) ++ [("Submit").data] := by
    simp [encodedLines]
  rw [hfront]
  have hcutSeq : goCut '=' (("Seq=").data ++ intToChars m.Sequence)
      = (("Seq").data, intToChars m.Sequence, true) := by
    rw [show ("Seq=").data = ("Seq").data ++ ['='] from rfl, List.append_assoc]
    exact goCut_append_sep '=' _ _ (by decide)
  simp only [parseMessageLines, List.getLast?_concat, List.dropLast_concat,
    eq_self_iff_true, if_true, hcutSeq, goAtoi_intToChars, and_self, true_and]
  by_cases hpos : m.Code > 0
  · have hmethL : (if m.Code > 0 then ("RSP/").data ++ m.Method.data ++ '/' :: intToChars m.Code
        else ("SET/").data ++ m.Method.data)
        = ("RSP").data ++ '/' :: (m.Method.data ++ '/' :: intToChars m.Code) := by
      rw [if_pos hpos, show ("RSP/").data = ("RSP").data ++ ['/'] from rfl]
      simp [List.append_assoc]
    rw [hmethL]
    have hcutm : goCut '/' (("RSP").data ++ '/' :: (m.Method.data ++ '/' :: intToChars m.Code))
        = (("RSP").data, m.Method.data ++ '/' :: intToChars m.Code, true) :=
      goCut_append_sep '/' _ _ (by decide)
    have hcut2 : goCut '/' (m.Method.data ++ '/' :: intToChars m.Code)
        = (m.Method.data, intToChars m.Code, true) :=
      goCut_append_sep '/' _ _ hmeth.2.2.2
    have hRSPSET : (("RSP").data = ("SET").data) = False := by
      simp
    simp only [parseAfterSeq, hcutm, hcut2, hRSPSET, goAtoi_intToChars,
      eq_self_iff_true, if_true, and_self, and_false, if_false,
      parseHeaders_encodedHeaders m hkeys huniq]
  · have hzero : m.Code = 0 := by omega
    have hmethL : (if m.Code > 0 then ("RSP/").data ++ m.Method.data ++ '/' :: intToChars m.Code
        else ("SET/").data ++ m.Method.data)
        = ("SET").data ++ '/' :: m.Method.data := by
      rw [if_neg hpos, show ("SET/").data = ("SET").data ++ ['/'] from rfl]
      simp [List.append_assoc]
    rw [hmethL]
    have hcutm : goCut '/' (("SET").data ++ '/' :: m.Method.data)
        = (("SET").data, m.Method.data, true) :=
      goCut_append_sep '/' _ _ (by decide)
    simp only [parseAfterSeq, hcutm, eq_self_iff_true, if_true, and_self,
      parseHeaders_encodedHeaders m hkeys huniq]
    rw [← hzero]

/-! ## Decoding drops the final unterminated segment -/

theorem NewMessage_no_linebreak (u : String) (hu : '\n' ∉ u.data) :
    NewMessage u = none := by
  unfold NewMessage
  rw [replaceCRLF_no_lf u.data hu, splitAll_no_sep '\n' u.data hu]
  simp [parseMessageLines]

theorem NewMessage_ignores_tail_crlf (s t : String)
    (ht1 : '\n' ∉ t.data) (_ht2 : '\r' ∉ t.data) :
    NewMessage (s ++ "\r\n" ++ t) = NewMessage (s ++ "\r\n") := by
  unfold NewMessage
  have hd1 : (s ++ "\r\n" ++ t).data = s.data ++ '\r' :: '\n' :: t.data := by
    simp [String.data_append]
  have hd2 : (s ++ "\r\n").data = s.data ++ '\r' :: '\n' :: ([] : List Char) := by
    simp [String.data_append]
  rw [hd1, hd2, replaceCRLF_append_crlf, replaceCRLF_append_crlf,
    replaceCRLF_no_lf t.data ht1]
  rw [show replaceCRLF [] = [] from rfl, splitAll_append_sep, splitAll_append_sep,
    splitAll_no_sep '\n' t.data ht1, splitAll_nil]
  simp [List.dropLast_concat]

theorem NewMessage_ignores_tail_lf (s t : String) (ht1 : '\n' ∉ t.data) :
    NewMessage (s ++ "\n" ++ t) = NewMessage (s ++ "\n") := by
  unfold NewMessage
  have hd1 : (s ++ "\n" ++ t).data = s.data ++ '\n' :: t.data := by
    simp [String.data_append]
  have hd2 : (s ++ "\n").data = s.data ++ ['\n'] := by
    simp [String.data_append]
  rw [hd1, hd2]
  have hlf := replaceCRLF_append_lf s.data t.data
  rw [hlf, replaceCRLF_no_lf t.data ht1]
  obtain ⟨A0, hA0⟩ := replaceCRLF_concat_lf_ends s.data
  rw [hA0]
  rw [show A0 ++ ['\n'] ++ t.data = A0 ++ '\n' :: t.data by simp,
    show A0 ++ ['\n'] = A0 ++ '\n' :: ([] : List Char) by simp]
  rw [splitAll_append_sep, splitAll_append_sep, splitAll_no_sep '\n' t.data ht1,
    splitAll_nil]
  simp [List.dropLast_concat]

/-! ## Relay, trim and TLS-role lemmas -/

theorem relayDirection_eq_forwardedUntilError (isUDP : Bool) (writeAddr : Option String) :
    ∀ events, relayDirection isUDP writeAddr events
      = forwardedUntilError isUDP writeAddr events := by
  intro events
  induction events with
  | nil => rfl
  | cons e rest ih =>
    cases e with
    | data payload sender =>
      by_cases hp : payload = []
      · subst hp
        simp [relayDirection, forwardedUntilError, ReadEvent.isFatal,
          List.filterMap_cons] at ih ⊢
        exact ih
      · have hp2 : payload.isEmpty = false := by simp [hp]
        simp [relayDirection, forwardedUntilError, ReadEvent.isFatal, hp, hp2,
          List.filterMap_cons] at ih ⊢
        exact ih
    | timeout =>
      simp [relayDirection, forwardedUntilError, ReadEvent.isFatal,
        List.filterMap_cons] at ih ⊢
      exact ih
    | fatal =>
      simp [relayDirection, forwardedUntilError, ReadEvent.isFatal]

theorem head?_dropWhile_semi (l : List Char) :
    ∀ a, (l.dropWhile (fun c => c = ';')).head? = some a → a ≠ ';' := by
  induction l with
  | nil =>
    intro a ha
    simp [List.dropWhile] at ha
  | cons c rest ih =>
    intro a ha
    by_cases hc : c = ';'
    · rw [List.dropWhile_cons_of_pos (by simp [hc])] at ha
      exact ih a ha
    · rw [List.dropWhile_cons_of_neg (by simp [hc])] at ha
      simp at ha
      rw [← ha]
      exact hc

theorem takeWhile_semi_replicate (l : List Char) :
    ∃ k, l.takeWhile (fun c => c = ';') = List.replicate k ';' := by
  induction l with
  | nil => exact ⟨0, rfl⟩
  | cons c rest ih =>
    by_cases hc : c = ';'
    · obtain ⟨k, hk⟩ := ih
      refine ⟨k + 1, ?_⟩
      rw [List.takeWhile_cons_of_pos (by simp [hc]), hk, hc]
      rfl
    · exact ⟨0, by rw [List.takeWhile_cons_of_neg (by simp [hc])]; rfl⟩

theorem goTrimRightSemi_spec (p : String) :
    (goTrimRightSemi p).data.getLast? ≠ some ';' ∧
    ∃ k, p.data = (goTrimRightSemi p).data ++ List.replicate k ';' := by
  unfold goTrimRightSemi
  constructor
  · rw [show (String.mk ((p.data.reverse.dropWhile (fun c => c = ';')).reverse)).data
        = (p.data.reverse.dropWhile (fun c => c = ';')).reverse from rfl]
    rw [List.getLast?_reverse]
    intro hcon
    exact head?_dropWhile_semi p.data.reverse ';' hcon rfl
  · obtain ⟨k, hk⟩ := takeWhile_semi_replicate p.data.reverse
    refine ⟨k, ?_⟩
    have hsplit := List.takeWhile_append_dropWhile
      (p := fun c => c = ';') (l := p.data.reverse)
    have : p.data = (p.data.reverse).reverse := by simp
    rw [this]
    conv_lhs => rw [← hsplit]
    rw [List.reverse_append, hk]
    simp [List.reverse_replicate]

theorem foldl_upgrade_inv (disableTLS : Bool) :
    ∀ (ms : List String) (r : LegRoles),
      r.dest ≠ TLSRole.SecureServer → r.client ≠ TLSRole.SecureClient →
      ((ms.foldl (fun r m => upgradeAfterForward disableTLS m r) r).dest
          ≠ TLSRole.SecureServer ∧
        (ms.foldl (fun r m => upgradeAfterForward disableTLS m r) r).client
          ≠ TLSRole.SecureClient) := by
  intro ms
  induction ms with
  | nil =>
    intro r h1 h2
    exact ⟨h1, h2⟩
  | cons m rest ih =>
    intro r h1 h2
    rw [List.foldl_cons]
    apply ih
    · by_cases hm : m = "START"
      · simp [upgradeAfterForward, hm]
      · simpa [upgradeAfterForward, hm] using h1
    · by_cases hm : m = "START"
      · cases disableTLS with
        | false => simp [upgradeAfterForward, hm]
        | true => simpa [upgradeAfterForward, hm] using h2
      · simpa [upgradeAfterForward, hm] using h2

/-! ## The claims -/

/-- Claim C1 (code bug): the spec says decoding never raises a fatal error
and always returns a best-effort partial Message, but `NewMessage` drops
the final split segment unconditionally and then indexes `[len-1]` / `[0]`
without a guard (the `len <= 0` guard tests the pre-drop split, which is
never empty); the empty input, any input with no line break, and even
`"iRTSP/1.21\r\nSeq=0\r\nSubmit\r\n"` hit an out-of-range index (modelled
as `none`) instead of producing a partial Message. -/
theorem C1_decode_crashes_on_malformed_input :
    NewMessage "" = none ∧ NewMessage "abc" = none ∧
    NewMessage "iRTSP/1.21\r\nSeq=0\r\nSubmit\r\n" = none := by
  refine ⟨rfl, rfl, by decide⟩

/-- Claim C2 (confirmed): for a well-formed message (`0 ≤ Code`, as a
request has `Code = 0` and a response `Code > 0`) with unique,
delimiter-free header keys and delimiter-free values, version and method,
decoding the encoding reproduces the message exactly — Version, Sequence,
Method, Code and the header mapping. -/
theorem C2_decode_encode_roundtrip (m : Message)
    (hver : delimFree m.Version) (hmeth : delimFree m.Method)
    (hkeys : ∀ kv ∈ m.Headers, delimFree kv.1 ∧ delimFree kv.2)
    (huniq : m.Headers.Pairwise (fun a b => a.1 ≠ b.1))
    (hcode : 0 ≤ m.Code) :
    NewMessage m.ToBytes = some m :=
  NewMessage_ToBytes_roundtrip m hver hmeth hkeys huniq hcode

/-- Witness for C2 at a concrete well-formed response message. -/
theorem C2_witness :
    NewMessage (Message.ToBytes
      { Version := "iRTSP-1.21", Sequence := -7, Method := "START", Code := 200,
        Headers := [("sc", "tls"), ("t", "1429051"), ("e", "")] })
      = some { Version := "iRTSP-1.21", Sequence := -7, Method := "START", Code := 200,
               Headers := [("sc", "tls"), ("t", "1429051"), ("e", "")] } :=
  C2_decode_encode_roundtrip _ (by decide) (by decide) (by decide) (by decide)
    (by decide)

/-- Counterexample to claim C3 as stated: the claim predicts that a `p`
value ending in `";;"` keeps one trailing `';'`, but
`strings.TrimRight(p, ";")` removes every trailing semicolon, so the
descriptor handed to the spawner is fully trimmed. -/
theorem C3_counterexample :
    knockDescriptor [("p", "iDataChunk/unicast/tcp/40605;;")]
        = "iDataChunk/unicast/tcp/40605" ∧
    knockDescriptor [("p", "iDataChunk/unicast/tcp/40605;;")]
        ≠ "iDataChunk/unicast/tcp/40605;" := by
  refine ⟨by decide, by decide⟩

/-- Claim C3 as amended: on a KNOCK message the descriptor passed to the
spawner is header `p` with all trailing semicolons removed — it never ends
in `';'`, and `p` is exactly the descriptor followed by a (possibly empty)
run of semicolons. -/
theorem C3_amended_knock_trims_all_trailing_semicolons (p : String) :
    (knockDescriptor [("p", p)]).data.getLast? ≠ some ';' ∧
    ∃ k, p.data = (knockDescriptor [("p", p)]).data ++ List.replicate k ';' := by
  have hget : goMapGet [("p", p)] "p" = p := rfl
  unfold knockDescriptor
  rw [hget]
  exact goTrimRightSemi_spec p

/-- Counterexample to claim C4 as stated: with the client direction failing
immediately and the destination still delivering data, the relay still
forwards the destination's data (so the error did not end both
directions), and it never closes the client endpoint (so it does not
release both endpoints). -/
theorem C4_counterexample :
    (handleMediaConnection "140.227.187.170" "tcp" "40603" true
        [ReadEvent.fatal] [ReadEvent.data [7] none, ReadEvent.fatal]).toClient
      = [SendOp.streamWrite [7]] ∧
    (handleMediaConnection "140.227.187.170" "tcp" "40603" true
        [ReadEvent.fatal] [ReadEvent.data [7] none, ReadEvent.fatal]).closedClient
      = false := by
  refine ⟨by decide, by decide⟩

/-- Claim C4 as amended: each copy direction forwards its own non-empty
reads up to its own first terminal error (an error on one direction does
not end the other), the relay returns only once both directions have
finished (`wg.Wait()`), and it then closes the destination endpoint only —
the accepted client endpoint is never closed by the relay. -/
theorem C4_amended_relay (serverAddress network port : String)
    (clientReads serverReads : List ReadEvent) :
    (handleMediaConnection serverAddress network port true
        clientReads serverReads).toServer
      = forwardedUntilError (network = "udp")
          (some (serverAddress ++ ":" ++ port)) clientReads ∧
    (handleMediaConnection serverAddress network port true
        clientReads serverReads).toClient
      = forwardedUntilError (network = "udp") none serverReads ∧
    (handleMediaConnection serverAddress network port true
        clientReads serverReads).closedServer = true ∧
    (handleMediaConnection serverAddress network port true
        clientReads serverReads).closedClient = false := by
  unfold handleMediaConnection
  simp [relayDirection_eq_forwardedUntilError]

/-- Claim C5 (code bug): the datagram relay does dial the configured
destination host on the descriptor's port, but destination-to-client
replies are issued as `WriteTo(buffer, conn.RemoteAddr())` where `conn` is
the bound, unconnected datagram socket — a nil address — and `conn.Read`
discards every sender address, so no "last-observed sender" is ever
tracked (the source's own TODO reads "Investigate why UDP isn't
working"). -/
theorem C5_udp_reply_ignores_sender :
    (handleMediaConnection "140.227.187.170" "udp" "40604" true
        [ReadEvent.data [1] (some "client:5000")]
        [ReadEvent.data [2] (some "140.227.187.170:40604")]).toServer
      = [SendOp.datagramWriteTo [1] (some "140.227.187.170:40604")] ∧
    (handleMediaConnection "140.227.187.170" "udp" "40604" true
        [ReadEvent.data [1] (some "client:5000")]
        [ReadEvent.data [2] (some "140.227.187.170:40604")]).toClient
      = [SendOp.datagramWriteTo [2] none] ∧
    SendOp.datagramWriteTo ([2] : List Nat) none
      ≠ SendOp.datagramWriteTo ([2] : List Nat) (some "client:5000") := by
  refine ⟨by decide, by decide, by decide⟩

/-- Claim C6 (confirmed): on a SETUP message a VIDEO channel is always
spawned from header `v`; an AUDIO channel is spawned from `a` exactly when
its value differs from `v`; a CONTROL channel is spawned from `c` exactly
when it differs from both; and in particular `v=X, a=X, c=Y` spawns one
VIDEO and, when `Y ≠ X`, one CONTROL and no AUDIO. -/
theorem C6_setup_spawn_conditions (headers : List (String × String)) (X Y : String) :
    ((setupSpawns headers).filter (fun s => s.2 = "VIDEO")).map Prod.fst
        = [goMapGet headers "v"] ∧
    ((setupSpawns headers).filter (fun s => s.2 = "AUDIO")).map Prod.fst
        = (if goMapGet headers "a" = goMapGet headers "v" then []
           else [goMapGet headers "a"]) ∧
    ((setupSpawns headers).filter (fun s => s.2 = "CONTROL")).map Prod.fst
        = (if goMapGet headers "c" ≠ goMapGet headers "v"
              ∧ goMapGet headers "c" ≠ goMapGet headers "a"
           then [goMapGet headers "c"] else []) ∧
    setupSpawns [("v", X), ("a", X), ("c", Y)]
        = (if Y = X then [(X, "VIDEO")] else [(X, "VIDEO"), (Y, "CONTROL")]) := by
  refine ⟨?_, ?_, ?_, ?_⟩
  · by_cases ha : goMapGet headers "a" = goMapGet headers "v" <;>
      by_cases hcv : goMapGet headers "c" = goMapGet headers "v" <;>
      by_cases hca : goMapGet headers "c" = goMapGet headers "a" <;>
      simp [setupSpawns, ha, hcv, hca]
  · by_cases ha : goMapGet headers "a" = goMapGet headers "v" <;>
      by_cases hcv : goMapGet headers "c" = goMapGet headers "v" <;>
      by_cases hca : goMapGet headers "c" = goMapGet headers "a" <;>
      simp [setupSpawns, ha, hcv, hca]
  · by_cases ha : goMapGet headers "a" = goMapGet headers "v" <;>
      by_cases hcv : goMapGet headers "c" = goMapGet headers "v" <;>
      by_cases hca : goMapGet headers "c" = goMapGet headers "a" <;>
      simp [setupSpawns, ha, hcv, hca]
  · by_cases hxy : Y = X
    · subst hxy
      simp [setupSpawns, goMapGet, List.lookup]
    · simp [setupSpawns, goMapGet, List.lookup, hxy]

/-- Claim C7 (confirmed): on a START message with the global TLS-disable
flag active, a present `sc` header equal to `"tls"` is forwarded as the
empty value, and any other `sc` value is forwarded unchanged; with the
flag inactive the whole message passes through unchanged. -/
theorem C7_start_sc_rewrite (ver : String) (seq code : Int)
    (hs : List (String × String)) (m : Message) :
    ((rewriteStartMessage true
        { Version := ver, Sequence := seq, Method := "START", Code := code,
          Headers := hs }).Headers.lookup "sc"
      = if hs.lookup "sc" = some "tls" then some "" else hs.lookup "sc") ∧
    rewriteStartMessage false m = m := by
  constructor
  · unfold rewriteStartMessage
    simp only [and_true, eq_self_iff_true, if_true]
    cases hlk : hs.lookup "sc" with
    | none => simp [hlk]
    | some scheme =>
      by_cases hst : scheme = "tls"
      · subst hst
        simp [hlk, lookup_mapInsert_self]
      · have : (some scheme = some "tls") = False := by simp [hst]
        simp [hlk, hst, this]
  · unfold rewriteStartMessage
    simp

/-- Claim C8 (confirmed): a START destination-to-client message upgrades the
TLS roles before the next round — the destination leg always becomes
SecureClient and the client leg becomes SecureServer unless TLS is
globally disabled (in which case it is left alone); any other method
changes nothing; a leg never reverts to Plain; and along any session the
destination leg is never SecureServer nor the client leg SecureClient, so
the only transitions are forward, out of Plain. -/
theorem C8_tls_role_upgrade (disableTLS : Bool) (method : String) (r : LegRoles)
    (ms : List String) :
    (upgradeAfterForward disableTLS "START" r).dest = TLSRole.SecureClient ∧
    (upgradeAfterForward disableTLS "START" r).client
        = (if disableTLS = true then r.client else TLSRole.SecureServer) ∧
    (upgradeAfterForward disableTLS method r = r ∨ method = "START") ∧
    ((upgradeAfterForward disableTLS method r).client ≠ TLSRole.Plain
        ∨ r.client = TLSRole.Plain) ∧
    ((upgradeAfterForward disableTLS method r).dest ≠ TLSRole.Plain
        ∨ r.dest = TLSRole.Plain) ∧
    (rolesAfter disableTLS (ms ++ ["START"])).dest = TLSRole.SecureClient ∧
    (rolesAfter false (ms ++ ["START"])).client = TLSRole.SecureServer ∧
    (rolesAfter disableTLS ms).dest ≠ TLSRole.SecureServer ∧
    (rolesAfter disableTLS ms).client ≠ TLSRole.SecureClient := by
  refine ⟨by simp [upgradeAfterForward], by simp [upgradeAfterForward],
    ?_, ?_, ?_, ?_, ?_, ?_, ?_⟩
  · by_cases hm : method = "START"
    · exact Or.inr hm
    · exact Or.inl (by simp [upgradeAfterForward, hm])
  · by_cases hr : r.client = TLSRole.Plain
    · exact Or.inr hr
    · refine Or.inl ?_
      by_cases hm : method = "START"
      · cases disableTLS with
        | false => simp [upgradeAfterForward, hm]
        | true => simpa [upgradeAfterForward, hm] using hr
      · simpa [upgradeAfterForward, hm] using hr
  · by_cases hr : r.dest = TLSRole.Plain
    · exact Or.inr hr
    · refine Or.inl ?_
      by_cases hm : method = "START"
      · simp [upgradeAfterForward, hm]
      · simpa [upgradeAfterForward, hm] using hr
  · simp [rolesAfter, List.foldl_append, upgradeAfterForward]
  · simp [rolesAfter, List.foldl_append, upgradeAfterForward]
  · unfold rolesAfter
    exact (foldl_upgrade_inv disableTLS ms _ (by decide) (by decide)).1
  · unfold rolesAfter
    exact (foldl_upgrade_inv disableTLS ms _ (by decide) (by decide)).2

/-- Claim C9 (confirmed, implicit): any descriptor without a `/` — the empty
string included — makes the spawner's `headerStrings[len-2]` index go out
of range (a runtime panic, `crashed` in the model); and a SETUP message
with no `v` header reads the zero value `""` and hands exactly that
crashing descriptor to the spawner as the first (VIDEO) spawn. -/
theorem C9_spawner_crashes_without_slash (h : String) (hs : List (String × String))
    (hslash : '/' ∉ h.data) (hv : hs.lookup "v" = none) :
    startMediaConnection h = SpawnOutcome.crashed ∧
    (setupSpawns hs).head? = some ("", "VIDEO") ∧
    startMediaConnection "" = SpawnOutcome.crashed := by
  refine ⟨?_, ?_, rfl⟩
  · unfold startMediaConnection
    rw [splitAll_no_sep '/' h.data hslash]
    rfl
  · unfold setupSpawns goMapGet
    rw [hv]
    rfl

/-- Witness for C9 at the slash-free descriptor `"abc"` and a header map
with no `v` key. -/
theorem C9_witness :
    startMediaConnection "abc" = SpawnOutcome.crashed ∧
    (setupSpawns [("a", "x")]).head? = some ("", "VIDEO") := by
  have h := C9_spawner_crashes_without_slash "abc" [("a", "x")] (by decide) (by decide)
  exact ⟨h.1, h.2.1⟩

/-- Counterexample to claim C10 as stated: this input ends in a bare LF, so
it does not end with CRLF, yet its last content line `k=v` is parsed into
the headers rather than dropped. -/
theorem C10_counterexample :
    NewMessage "iRTSP-1.21\nSeq=1\nSET/M\nk=v\n"
        = some { Version := "iRTSP-1.21", Sequence := 1, Method := "M", Code := 0,
                 Headers := [("k", "v")] } ∧
    ("\r\n").data.isSuffixOf ("iRTSP-1.21\nSeq=1\nSET/M\nk=v\n").data = false := by
  refine ⟨by decide, by decide⟩

/-- Claim C10 as amended: decode unconditionally discards the final segment
of the line split, so for every input that does not end with a line break
(CRLF or bare LF) the last content line is dropped before parsing: any
line-break-free tail `t` after the last line break is ignored entirely,
and an input with no line break at all loses its only line and crashes. -/
theorem C10_amended_last_segment_dropped (s t u : String)
    (ht1 : '\n' ∉ t.data) (ht2 : '\r' ∉ t.data) (hu : '\n' ∉ u.data) :
    NewMessage (s ++ "\r\n" ++ t) = NewMessage (s ++ "\r\n") ∧
    NewMessage (s ++ "\n" ++ t) = NewMessage (s ++ "\n") ∧
    NewMessage u = none :=
  ⟨NewMessage_ignores_tail_crlf s t ht1 ht2, NewMessage_ignores_tail_lf s t ht1,
    NewMessage_no_linebreak u hu⟩

/-- Witness for C10 at concrete strings. -/
theorem C10_witness :
    NewMessage ("A" ++ "\r\n" ++ "k=v") = NewMessage ("A" ++ "\r\n") ∧
    NewMessage ("A" ++ "\n" ++ "k=v") = NewMessage ("A" ++ "\n") ∧
    NewMessage "abc" = none :=
  C10_amended_last_segment_dropped "A" "k=v" "abc" (by decide) (by decide) (by decide)
